import Mathlib

/-!
Verification of the quiz parsing and shuffling core of `app.py`
(`parse_quiz_from_text`, lines 334-373, and `shuffle_quiz`, lines 375-416).

Python strings are modelled as lists of Unicode code points (`List Nat`),
so that `chr`/`ord` are the identity and letter arithmetic (`chr(65 + idx)`)
is faithful.  Character classes (`\s`, `\d`, `\w`, `[A-D]`, `str.lower`,
`str.upper`, `str.splitlines`) are modelled at the code-point level; the
`str.lower`/`str.upper` model covers ASCII, which is the alphabet the two
functions inspect.  The nondeterminism of `random.shuffle` is modelled by
an explicit permutation argument: a call to `random.shuffle(xs)` is
`applyPerm p xs` for some `p` that is a permutation of `range xs.length`.
-/

namespace TrailheadQuiz

/-- A Python string: its list of Unicode code points. -/
abbrev Str := List Nat

/-- Code point of a character literal. -/
def ch (c : Char) : Nat := c.toNat

/-- Convert a Lean string literal into the code-point model. -/
def strOf (s : String) : Str := s.data.map ch

/-- The code points matched by Python's `\s` / stripped by `str.strip()`
(ASCII whitespace, the C1 separators, and the Unicode space characters). -/
def isSpaceN (c : Nat) : Bool :=
  c == 9 || c == 10 || c == 11 || c == 12 || c == 13 || c == 28 || c == 29 ||
  c == 30 || c == 31 || c == 32 || c == 133 || c == 160 || c == 5760 ||
  (8192 ≤ c && c ≤ 8202) || c == 8232 || c == 8233 || c == 8239 || c == 8287 || c == 12288

/-- ASCII decimal digits (`\d`). -/
def isDigitN (c : Nat) : Bool := 48 ≤ c && c ≤ 57

/-- The line boundaries recognized by Python's `str.splitlines`. -/
def isLineBreak (c : Nat) : Bool :=
  c == 10 || c == 11 || c == 12 || c == 13 || c == 28 || c == 29 || c == 30 ||
  c == 133 || c == 8232 || c == 8233

/-- ASCII word characters (`\w`), used for the `\b` boundary after a letter. -/
def isWordCharN (c : Nat) : Bool :=
  (48 ≤ c && c ≤ 57) || (65 ≤ c && c ≤ 90) || (97 ≤ c && c ≤ 122) || c == 95

/-- The characters matched by `[A-D]` with `re.IGNORECASE`. -/
def isADi (c : Nat) : Bool :=
  c == 65 || c == 66 || c == 67 || c == 68 || c == 97 || c == 98 || c == 99 || c == 100

/-- The characters matched by the case-sensitive `[A-D]`. -/
def isUpperADn (c : Nat) : Bool := 65 ≤ c && c ≤ 68

/-- ASCII `str.lower` on one code point. -/
def lowerN (c : Nat) : Nat := if 65 ≤ c ∧ c ≤ 90 then c + 32 else c

/-- ASCII `str.upper` on one code point. -/
def upperN (c : Nat) : Nat := if 97 ≤ c ∧ c ≤ 122 then c - 32 else c

/-- `str.lower` on a string. -/
def pyLower (s : Str) : Str := s.map lowerN

/-- Remove trailing whitespace (the second half of `str.strip()`). -/
def stripEnd (s : Str) : Str := (s.reverse.dropWhile isSpaceN).reverse

/-- Python `str.strip()`: drop leading and trailing whitespace. -/
def pyStrip (s : Str) : Str := stripEnd (s.dropWhile isSpaceN)

/-- Worker for `str.splitlines`: `acc` is the current line, reversed; a
`"\r\n"` pair counts as a single boundary.  The recursion is driven by the
`fuel` counter so that the definition is structural; any `fuel > s.length`
yields the untruncated result, since every step consumes at least one
character. -/
def splitlinesAux : Nat → Str → Str → List Str
  | 0, _, acc => if acc = [] then [] else [acc.reverse]
  | fuel + 1, s, acc =>
    match s with
    | [] => if acc = [] then [] else [acc.reverse]
    | c :: cs =>
      if c = 13 then
        acc.reverse :: splitlinesAux fuel (if cs.headD 0 = 10 then cs.tail else cs) []
      else if isLineBreak c then acc.reverse :: splitlinesAux fuel cs []
      else splitlinesAux fuel cs (c :: acc)

/-- Python `str.splitlines()`. -/
def pySplitlines (s : Str) : List Str := splitlinesAux (s.length + 1) s []

/-- Attempt to match the question-number separator `\s*\d+\.\s+` at the head
of `s` (the `(?m)^` anchor is handled by the caller).  On success, returns
the remaining input after the greedy match together with a flag telling
whether the last consumed character was a newline (so the caller knows
whether the position after the match is again a line start). -/
def matchMarker (s : Str) : Option (Str × Bool) :=
  let s1 := s.dropWhile isSpaceN
  if s1.takeWhile isDigitN = [] then none
  else
    match s1.dropWhile isDigitN with
    | c :: rest =>
      if c = ch '.' then
        match rest with
        | [] => none
        | w :: _ =>
          if isSpaceN w then
            some (rest.dropWhile isSpaceN, (rest.takeWhile isSpaceN).getLast? == some 10)
          else none
      else none
    | [] => none

theorem matchMarker_some_length {s : Str} {r : Str × Bool}
    (h : matchMarker s = some r) : r.1.length < s.length := by
  unfold matchMarker at h
  set s1 := s.dropWhile isSpaceN with hs1
  by_cases hd : s1.takeWhile isDigitN = []
  · simp [hd] at h
  · simp only [hd, if_false] at h
    rcases hdrop : s1.dropWhile isDigitN with _ | ⟨c, rest⟩
    · rw [hdrop] at h; simp at h
    · rw [hdrop] at h
      by_cases hc : c = ch '.'
      · simp only [hc, if_true] at h
        rcases rest with _ | ⟨w, rest'⟩
        · simp at h
        · by_cases hw : isSpaceN w = true
          · simp only [hw, if_true] at h
            have h1 : r.1 = (w :: rest').dropWhile isSpaceN := by
              cases h; rfl
            have h2 : ((w :: rest').dropWhile isSpaceN).length ≤ (w :: rest').length :=
              (List.dropWhile_suffix _).length_le
            have h3 : s1.length = (s1.takeWhile isDigitN).length + (c :: w :: rest').length := by
              conv_lhs => rw [← List.takeWhile_append_dropWhile (p := isDigitN) (l := s1)]
              rw [hdrop, List.length_append]
            have h4 : 1 ≤ (s1.takeWhile isDigitN).length := by
              cases hteq : s1.takeWhile isDigitN with
              | nil => exact absurd hteq hd
              | cons a as => simp
            have h5 : s1.length ≤ s.length := by
              rw [hs1]; exact (List.dropWhile_suffix _).length_le
            rw [h1]
            simp only [List.length_cons] at h2 h3 ⊢
            omega
          · simp [hw] at h
      · simp [hc] at h

/-- Worker for `re.split(r"(?m)^\s*\d+\.\s+", raw)`: scan the input one
position at a time; at every line start try the separator, and on a match
emit the accumulated part and continue after the separator.  The recursion
is driven by the `fuel` counter so that the definition is structural; any
`fuel > s.length` yields the untruncated scan, since every step consumes at
least one character. -/
def splitScanAux : Nat → Str → Bool → Str → List Str
  | 0, _, _, acc => [acc.reverse]
  | _ + 1, [], _, acc => [acc.reverse]
  | fuel + 1, c :: cs, atStart, acc =>
    if h : atStart ∧ (matchMarker (c :: cs)).isSome then
      acc.reverse ::
        splitScanAux fuel ((matchMarker (c :: cs)).get h.2).1
          ((matchMarker (c :: cs)).get h.2).2 []
    else splitScanAux fuel cs (c == 10) (c :: acc)

/-- `re.split(r"(?m)^\s*\d+\.\s+", raw)` (line 336). -/
def pySplitMarker (raw : Str) : List Str := splitScanAux (raw.length + 1) raw true []

/-- Worker for `preambleSpec`, mirroring the scan of `splitScanAux` but only
collecting the text before the first separator match. -/
def preambleSpecAux : Str → Bool → Str
  | [], _ => []
  | c :: cs, atStart =>
    if atStart ∧ (matchMarker (c :: cs)).isSome then []
    else c :: preambleSpecAux cs (c == 10)

/-- Modelled from the spec's words for claim C6: "the text before the first
marker (preamble/commentary)" — the characters of the raw input that precede
the first line start at which the numbering separator matches. -/
def preambleSpec (raw : Str) : Str := preambleSpecAux raw true

/-- Python's substring test `needle in hay`. -/
def hasSubstr (needle : Str) : Str → Bool
  | [] => needle.isEmpty
  | c :: cs => needle.isPrefixOf (c :: cs) || hasSubstr needle cs

/-- `s.split(":", 1)[1]`: everything after the first colon (callers guard on
`":" in s`). -/
def afterFirstColon (s : Str) : Str := (s.dropWhile (fun c => decide (c ≠ ch ':'))).drop 1

/-- `re.match(r"^([A-D])\b", candidate, re.IGNORECASE)` followed by
`.group(1).upper()` (lines 356-358). -/
def matchLetterB (cand : Str) : Option Nat :=
  match cand with
  | [] => none
  | c :: rest =>
    if isADi c ∧ (rest = [] ∨ isWordCharN (rest.headD 0) = false) then some (upperN c)
    else none

/-- Extraction of the correct letter from one candidate line
(lines 354-358: require a colon, split at the first colon, strip, match). -/
def letterFromLine (cm : Str) : Option Nat :=
  if ch ':' ∈ cm then matchLetterB (pyStrip (afterFirstColon cm)) else none

/-- Lines 352-358: the first line containing `"correct"` (case-insensitive)
is the correct-answer candidate; the letter is extracted from it. -/
def correctLetterOf (lines : List Str) : Option Nat :=
  match lines.find? (fun ln => hasSubstr (strOf "correct") (pyLower ln)) with
  | some cm => letterFromLine cm
  | none => none

/-- Lines 360-363: the first line containing `"explanation"`; if it has a
colon, everything after the first colon (stripped), else the placeholder. -/
def explanationOf (lines : List Str) : Str :=
  match lines.find? (fun ln => hasSubstr (strOf "explanation") (pyLower ln)) with
  | some el =>
    if ch ':' ∈ el then pyStrip (afterFirstColon el) else strOf "No explanation provided."
  | none => strOf "No explanation provided."

/-- The option-line regex `^([A-D])[\).]\s*(.*)$` shared by lines 348 and
387/396: on success, the letter and the text after the letter marker (the
capture group, before any `.strip()`). -/
def reOptMatch (ln : Str) : Option (Nat × Str) :=
  match ln with
  | c1 :: c2 :: rest =>
    if isUpperADn c1 ∧ (c2 = ch ')' ∨ c2 = ch '.') then
      some (c1, rest.dropWhile isSpaceN)
    else none
  | _ => none

/-- Line 350: a matched option line is stored as `f"{letter}. {text}"`. -/
def optionOf (ln : Str) : Option Str :=
  (reOptMatch ln).map (fun p => p.1 :: ch '.' :: ch ' ' :: p.2)

/-- One parsed quiz item: the dict
`{"question": ..., "options": ..., "correct": ..., "explanation": ...}`.
`correct` is `none` for Python `None`, `some c` for a one-character letter
string with code point `c`. -/
structure Question where
  question : Str
  options : List Str
  correct : Option Nat
  explanation : Str
deriving DecidableEq, Repr, Inhabited

/-- Line 341: the non-empty stripped lines of one block. -/
def linesOf (block : Str) : List Str :=
  ((pySplitlines block).map pyStrip).filter (fun l => decide (l ≠ []))

/-- Line 337: strip each part and drop the empty ones. -/
def blocksOf (raw : Str) : List Str :=
  ((pySplitMarker raw).map pyStrip).filter (fun b => decide (b ≠ []))

/-- Lines 340-371: process one block; `none` when the block is dropped
(line 365: prompt non-empty, at least 3 options, a correct letter found). -/
def processBlock (block : Str) : Option Question :=
  let lines := linesOf block
  if lines = [] then none
  else
    let question_text := lines.headD []
    let options := lines.filterMap optionOf
    let correct_letter := correctLetterOf lines
    let explanation := explanationOf lines
    if question_text ≠ [] ∧ 3 ≤ options.length ∧ correct_letter.isSome then
      some ⟨question_text, options, correct_letter, explanation⟩
    else none

/-- `parse_quiz_from_text` (lines 334-373). -/
def parse_quiz_from_text (raw : Str) : List Question :=
  (blocksOf raw).filterMap processBlock

/-- One call of `random.shuffle(xs)`, with the randomness made explicit:
`p` lists which source index lands at each position.  When `p` is a
permutation of `range xs.length` this is exactly a permutation of `xs`. -/
def applyPerm (p : List Nat) (xs : List Str) : List Str :=
  p.map (fun i => xs.getD i [])

/-- `random.shuffle` on the copied question list (line 380-381). -/
def applyPermQ (p : List Nat) (qs : List Question) : List Question :=
  p.map (fun i => qs.getD i default)

/-- Lines 385-389: the option texts of a question, each option stripped of
its letter marker by the regex and `.strip()`-ed; options that do not match
the regex are silently dropped. -/
def optTexts (q : Question) : List Str :=
  q.options.filterMap (fun opt => (reOptMatch opt).map (fun p => pyStrip p.2))

/-- Lines 391-398: find the text of the currently-correct option — the first
option starting with `f"{letter}."`; its text via the regex if it matches,
else `opt[2:].strip()`.  `none` when `correct` is unset or no option starts
with the letter. -/
def origCorrectText (q : Question) : Option Str :=
  match q.correct with
  | none => none
  | some L =>
    match q.options.find? (fun opt => decide (opt.take 2 = [L, ch '.'])) with
    | none => none
    | some opt =>
      match reOptMatch opt with
      | some p => some (pyStrip p.2)
      | none => some (pyStrip (opt.drop 2))

/-- Lines 402-406: relabel the permuted texts as `f"{chr(65+idx)}. {txt}"`,
starting at index `i`. -/
def buildOptions : Nat → List Str → List Str
  | _, [] => []
  | i, t :: ts => ((65 + i) :: ch '.' :: ch ' ' :: t) :: buildOptions (i + 1) ts

/-- Line 407: the test `orig_correct_text and txt == orig_correct_text` —
`orig_correct_text` must be truthy (not `None` and not the empty string) and
equal to the current text. -/
def truthyEq (orig : Option Str) (t : Str) : Bool :=
  match orig with
  | some o => decide (o ≠ [] ∧ t = o)
  | none => false

/-- Lines 403-408: the `new_correct_letter` accumulator.  Each iteration with
`orig_correct_text` truthy and `txt == orig_correct_text` overwrites the
accumulator with the current letter, so the final value is the letter of the
last matching position. -/
def newCorrect (orig : Option Str) : Nat → List Str → Option Nat → Option Nat
  | _, [], acc => acc
  | i, t :: ts, acc =>
    newCorrect orig (i + 1) ts (if truthyEq orig t then some (65 + i) else acc)

/-- Lines 384-415: the per-question body of the shuffle loop, with the
option permutation `op` made explicit. -/
def shuffleQuestion (op : List Nat) (q : Question) : Question :=
  let texts := applyPerm op (optTexts q)
  { question := q.question
    options := buildOptions 0 texts
    correct := newCorrect (origCorrectText q) 0 texts none
    explanation := q.explanation }

/-- `shuffle_quiz` (lines 375-416): `qp` is the question permutation drawn by
`random.shuffle(shuffled_questions)` and `ops` the option permutations drawn
inside the loop, one per (already permuted) question. -/
def shuffle_quiz (qp : List Nat) (ops : List (List Nat)) (quiz : List Question) : List Question :=
  if quiz = [] then []
  else List.zipWith shuffleQuestion ops (applyPermQ qp quiz)

/-- How many options of `q` are marked correct: the options whose letter tag
equals the recorded correct letter (the way `app.py` itself resolves the
letter at lines 869-870, but counting every match). -/
def markedCount (q : Question) : Nat :=
  match q.correct with
  | none => 0
  | some L => q.options.countP (fun opt => decide (opt.take 2 = [L, ch '.']))

/-- Worker computing the index of the last occurrence of `t`, mirroring the
overwrite in the loop of lines 404-408. -/
def lastIdxOfAux : Nat → List Str → Str → Option Nat → Option Nat
  | _, [], _, acc => acc
  | i, x :: xs, t, acc => lastIdxOfAux (i + 1) xs t (if x = t then some i else acc)

/-- Index of the last occurrence of `t` in `texts`, if any. -/
def lastIdxOf (texts : List Str) (t : Str) : Option Nat :=
  lastIdxOfAux 0 texts t none

/-!
A small heap model for the frame claim: Python `Question` dicts live in a
store addressed by `Nat`, and a quiz value held by the caller is a list of
addresses.  `shuffle_quiz` only ever reads the store: line 380 copies the
address list (`original_quiz[:]`), line 381 permutes the copy, and the loop
body builds fresh dicts from the values it reads.  The call therefore
returns the store unchanged together with the freshly built output.
-/

/-- One call of `shuffle_quiz` at the heap level: returns the store after
the call and the list of freshly allocated output questions. -/
def shuffle_quiz_call (store : List Question) (refs : List Nat)
    (qp : List Nat) (ops : List (List Nat)) : List Question × List Question :=
  if refs = [] then (store, [])
  else
    let shuffled_refs := qp.map (fun i => refs.getD i 0)
    (store, List.zipWith (fun op r => shuffleQuestion op (store.getD r default)) ops shuffled_refs)

/-- The store after `n` successive calls of `shuffle_quiz` on the same quiz. -/
def callRepeat (refs : List Nat) (qp : List Nat) (ops : List (List Nat)) :
    Nat → List Question → List Question
  | 0, store => store
  | n + 1, store => callRepeat refs qp ops n (shuffle_quiz_call store refs qp ops).1

/-! ### Supporting lemmas -/

theorem dropWhile_idem (p : Nat → Bool) (l : Str) :
    (l.dropWhile p).dropWhile p = l.dropWhile p := by
  induction l with
  | nil => rfl
  | cons c cs ih =>
    by_cases h : p c = true
    · simpa [List.dropWhile_cons, h] using ih
    · simp [List.dropWhile_cons, h]

theorem dropWhile_head_false {p : Nat → Bool} {l t : Str} {c : Nat}
    (h : l.dropWhile p = c :: t) : p c = false := by
  induction l with
  | nil => simp at h
  | cons a as ih =>
    by_cases ha : p a = true
    · rw [List.dropWhile_cons, if_pos ha] at h; exact ih h
    · rw [List.dropWhile_cons, if_neg ha] at h
      cases h; simpa using ha

theorem pyStrip_cons_ne_nil {c : Nat} {l : Str} (hc : isSpaceN c = false) :
    pyStrip (c :: l) ≠ [] := by
  intro h
  unfold pyStrip stripEnd at h
  rw [List.dropWhile_cons, if_neg (by simp [hc])] at h
  have h2 : (c :: l).reverse.dropWhile isSpaceN = [] := by
    have := congrArg List.reverse h
    simpa using this
  have h3 : ∀ x ∈ (c :: l).reverse, isSpaceN x = true :=
    List.dropWhile_eq_nil_iff.mp h2
  have := h3 c (by simp)
  rw [hc] at this
  exact Bool.false_ne_true this

theorem pyStrip_head_not_space {p : Str} {c : Nat} {t : Str}
    (h : pyStrip p = c :: t) : isSpaceN c = false := by
  unfold pyStrip stripEnd at h
  obtain ⟨u, hu⟩ := List.dropWhile_suffix (l := (p.dropWhile isSpaceN).reverse) (p := isSpaceN)
  have hY : p.dropWhile isSpaceN = c :: (t ++ u.reverse) := by
    have h4 : ((p.dropWhile isSpaceN).reverse.dropWhile isSpaceN) = (c :: t).reverse := by
      have := congrArg List.reverse h
      simpa using this
    have h5 : p.dropWhile isSpaceN = ((u ++ (c :: t).reverse).reverse) := by
      rw [← h4, hu]; simp
    simpa using h5
  exact dropWhile_head_false hY

theorem isLineBreak_isSpace {c : Nat} (h : isLineBreak c = true) : isSpaceN c = true := by
  simp only [isLineBreak, Bool.or_eq_true, beq_iff_eq] at h
  simp only [isSpaceN, Bool.or_eq_true, beq_iff_eq, Bool.and_eq_true, decide_eq_true_eq]
  omega

theorem splitlinesAux_eq_nil_iff :
    ∀ (fuel : Nat) (s acc : Str), s.length < fuel →
      (splitlinesAux fuel s acc = [] ↔ s = [] ∧ acc = []) := by
  intro fuel
  induction fuel with
  | zero => intro s acc h; omega
  | succ fuel ih =>
    intro s acc h
    cases s with
    | nil => by_cases hacc : acc = [] <;> simp [splitlinesAux, hacc]
    | cons c cs =>
      by_cases hc : c = 13
      · simp [splitlinesAux, hc]
      · by_cases hbr : isLineBreak c = true
        · simp [splitlinesAux, hc, hbr]
        · rw [splitlinesAux]
          simp only [if_neg hc, if_neg hbr]
          rw [ih cs (c :: acc) (by simp at h; omega)]
          simp

theorem splitlinesAux_headD :
    ∀ (fuel : Nat) (s acc : Str), s.length < fuel →
      (splitlinesAux fuel s acc).headD []
        = acc.reverse ++ s.takeWhile (fun c => !isLineBreak c) := by
  intro fuel
  induction fuel with
  | zero => intro s acc h; omega
  | succ fuel ih =>
    intro s acc h
    cases s with
    | nil => by_cases hacc : acc = [] <;> simp [splitlinesAux, hacc]
    | cons c cs =>
      by_cases hc : c = 13
      · subst hc
        simp [splitlinesAux, List.takeWhile_cons, show isLineBreak 13 = true from rfl]
      · by_cases hbr : isLineBreak c = true
        · simp [splitlinesAux, hc, hbr, List.takeWhile_cons]
        · rw [splitlinesAux]
          simp only [if_neg hc, if_neg hbr]
          rw [ih cs (c :: acc) (by simp at h; omega)]
          simp [List.takeWhile_cons, hbr]

theorem blocksOf_mem {raw b : Str} (hb : b ∈ blocksOf raw) :
    b ≠ [] ∧ ∃ p, b = pyStrip p := by
  unfold blocksOf at hb
  have h1 := List.mem_filter.mp hb
  obtain ⟨p, _, hp⟩ := List.mem_map.mp h1.1
  refine ⟨by simpa using h1.2, p, hp.symm⟩

theorem linesOf_ne_nil {raw b : Str} (hb : b ∈ blocksOf raw) : linesOf b ≠ [] := by
  obtain ⟨hne, p, hp⟩ := blocksOf_mem hb
  obtain ⟨c, t, hct⟩ : ∃ c t, b = c :: t := by
    cases b with
    | nil => exact absurd rfl hne
    | cons c t => exact ⟨c, t, rfl⟩
  have hcs : isSpaceN c = false := pyStrip_head_not_space (p := p) (by rw [← hp, hct])
  have hcb : isLineBreak c = false := by
    cases hlb : isLineBreak c with
    | false => rfl
    | true => rw [isLineBreak_isSpace hlb] at hcs; exact absurd hcs (by simp)
  have hlines_ne : pySplitlines b ≠ [] := by
    unfold pySplitlines
    rw [Ne, splitlinesAux_eq_nil_iff (b.length + 1) b [] (by omega)]
    simp [hct]
  have hhead : (pySplitlines b).headD [] = c :: t.takeWhile (fun x => !isLineBreak x) := by
    unfold pySplitlines
    rw [splitlinesAux_headD (b.length + 1) b [] (by omega), hct]
    simp [List.takeWhile_cons, hcb]
  obtain ⟨l0, ls, hls⟩ : ∃ l0 ls, pySplitlines b = l0 :: ls := by
    cases hsp : pySplitlines b with
    | nil => exact absurd hsp hlines_ne
    | cons l0 ls => exact ⟨l0, ls, rfl⟩
  have hl0 : l0 = c :: t.takeWhile (fun x => !isLineBreak x) := by
    rw [hls] at hhead; simpa using hhead
  have hmem : pyStrip l0 ∈ linesOf b := by
    unfold linesOf
    refine List.mem_filter.mpr ⟨List.mem_map.mpr ⟨l0, by simp [hls], rfl⟩, ?_⟩
    rw [hl0]
    simpa using pyStrip_cons_ne_nil (l := t.takeWhile (fun x => !isLineBreak x)) hcs
  intro hcon
  rw [hcon] at hmem
  exact absurd hmem (List.not_mem_nil _)

theorem mem_parse_iff {raw : Str} {q : Question} :
    q ∈ parse_quiz_from_text raw ↔ ∃ b, b ∈ blocksOf raw ∧ processBlock b = some q := by
  unfold parse_quiz_from_text
  exact List.mem_filterMap

theorem processBlock_eq_some {b : Str} {q : Question} :
    processBlock b = some q ↔
      linesOf b ≠ [] ∧ (linesOf b).headD [] ≠ [] ∧
      3 ≤ ((linesOf b).filterMap optionOf).length ∧
      (correctLetterOf (linesOf b)).isSome ∧
      q = ⟨(linesOf b).headD [], (linesOf b).filterMap optionOf,
           correctLetterOf (linesOf b), explanationOf (linesOf b)⟩ := by
  unfold processBlock
  by_cases h0 : linesOf b = []
  · simp [h0]
  · rw [if_neg h0]
    by_cases hcond : (linesOf b).headD [] ≠ [] ∧
        3 ≤ ((linesOf b).filterMap optionOf).length ∧ (correctLetterOf (linesOf b)).isSome
    · rw [if_pos hcond]
      simp only [Option.some_inj]
      constructor
      · intro hq
        exact ⟨h0, hcond.1, hcond.2.1, hcond.2.2, hq.symm⟩
      · intro hq
        exact hq.2.2.2.2.symm
    · rw [if_neg hcond]
      constructor
      · intro hq; exact absurd hq (by simp)
      · rintro ⟨h1, h2, h3, h4, h5⟩
        exact absurd ⟨h2, h3, h4⟩ hcond

theorem range_map_getD {α : Type} (xs : List α) (d : α) :
    (List.range xs.length).map (fun i => xs.getD i d) = xs := by
  apply List.ext_getElem
  · simp
  · intro i h1 h2
    simp only [List.getElem_map, List.getElem_range, List.getD_eq_getElem?_getD,
      List.getElem?_eq_getElem h2, Option.getD_some]

theorem applyPerm_perm {p : List Nat} {xs : List Str}
    (h : p.Perm (List.range xs.length)) : (applyPerm p xs).Perm xs := by
  have h2 := h.map (fun i => xs.getD i [])
  rw [range_map_getD] at h2
  exact h2

theorem applyPermQ_perm {p : List Nat} {qs : List Question}
    (h : p.Perm (List.range qs.length)) : (applyPermQ p qs).Perm qs := by
  have h2 := h.map (fun i => qs.getD i default)
  rw [range_map_getD] at h2
  exact h2

theorem truthyEq_some (o t : Str) :
    truthyEq (some o) t = decide (o ≠ [] ∧ t = o) := rfl

theorem newCorrect_not_mem {t : Str} {texts : List Str} (h : t ∉ texts) :
    ∀ i acc, newCorrect (some t) i texts acc = acc := by
  induction texts with
  | nil => intro i acc; rfl
  | cons x ts ih =>
    intro i acc
    have hx : ¬(t ≠ [] ∧ x = t) := by
      rintro ⟨-, rfl⟩
      exact h (List.mem_cons_self _ _)
    rw [newCorrect, truthyEq_some, if_neg (by simpa using hx)]
    exact ih (fun hm => h (List.mem_cons_of_mem _ hm)) _ _

theorem newCorrect_nodup {t : Str} {texts : List Str} (hnd : texts.Nodup)
    (hne : t ≠ []) :
    ∀ m, m < texts.length → texts.getD m [] = t →
    ∀ i acc, newCorrect (some t) i texts acc = some (65 + (i + m)) := by
  induction texts with
  | nil => intro m hm; simp at hm
  | cons x ts ih =>
    intro m hm ht i acc
    cases m with
    | zero =>
      have hx : x = t := by simpa using ht
      have hts : t ∉ ts := by rw [← hx]; exact (List.nodup_cons.mp hnd).1
      rw [newCorrect, truthyEq_some, if_pos (by simp [hne, hx])]
      rw [newCorrect_not_mem hts]
      simp
    | succ m' =>
      have hm' : m' < ts.length := by simpa using hm
      have htm : ts.getD m' [] = t := by simpa using ht
      have hmem : t ∈ ts := by
        rw [← htm, List.getD_eq_getElem?_getD, List.getElem?_eq_getElem hm']
        exact List.getElem_mem _
      have hx : ¬(t ≠ [] ∧ x = t) := by
        rintro ⟨-, rfl⟩
        exact (List.nodup_cons.mp hnd).1 hmem
      rw [newCorrect, truthyEq_some, if_neg (by simpa using hx)]
      rw [ih (List.nodup_cons.mp hnd).2 m' hm' htm (i + 1) acc]
      congr 1
      omega

theorem countP_buildOptions_lt {L : Nat} {texts : List Str} :
    ∀ i, L < 65 + i →
    (buildOptions i texts).countP (fun opt => decide (opt.take 2 = [L, ch '.'])) = 0 := by
  induction texts with
  | nil => intro i h; rfl
  | cons x ts ih =>
    intro i h
    rw [buildOptions, List.countP_cons, ih (i + 1) (by omega)]
    have hf : decide (((65 + i) :: ch '.' :: ch ' ' :: x).take 2 = [L, ch '.']) = false := by
      simp only [List.take_succ_cons, List.take_zero, decide_eq_false_iff_not, List.cons.injEq]
      intro hc
      exact absurd hc.1 (by omega)
    simp only [hf]
    simp

theorem countP_buildOptions_eq_one {texts : List Str} :
    ∀ i m, m < texts.length →
    (buildOptions i texts).countP
      (fun opt => decide (opt.take 2 = [65 + (i + m), ch '.'])) = 1 := by
  induction texts with
  | nil => intro i m h; simp at h
  | cons x ts ih =>
    intro i m hm
    rw [buildOptions, List.countP_cons]
    cases m with
    | zero =>
      have ht : decide (((65 + i) :: ch '.' :: ch ' ' :: x).take 2 = [65 + (i + 0), ch '.']) = true := by
        simp
      rw [countP_buildOptions_lt (i + 1) (by omega)]
      simp only [ht]
      simp
    | succ m' =>
      have hf : decide (((65 + i) :: ch '.' :: ch ' ' :: x).take 2
          = [65 + (i + (m' + 1)), ch '.']) = false := by
        simp only [List.take_succ_cons, List.take_zero, decide_eq_false_iff_not, List.cons.injEq]
        intro hc
        exact absurd hc.1 (by omega)
      have harith : 65 + (i + (m' + 1)) = 65 + ((i + 1) + m') := by omega
      have hrec := ih (i + 1) m' (by simpa using hm)
      rw [← harith] at hrec
      rw [hrec]
      simp only [hf]
      simp

theorem buildOptions_length (texts : List Str) :
    ∀ i, (buildOptions i texts).length = texts.length := by
  induction texts with
  | nil => intro i; rfl
  | cons x ts ih => intro i; rw [buildOptions]; simp [ih]

theorem buildOptions_getD {texts : List Str} :
    ∀ i m, m < texts.length →
    (buildOptions i texts).getD m [] = (65 + (i + m)) :: ch '.' :: ch ' ' :: texts.getD m [] := by
  induction texts with
  | nil => intro i m h; simp at h
  | cons x ts ih =>
    intro i m hm
    cases m with
    | zero => rw [buildOptions]; simp
    | succ m' =>
      rw [buildOptions]
      have := ih (i + 1) m' (by simpa using hm)
      simp only [List.getD_cons_succ, this]
      congr 2
      omega

theorem optionOf_shape {ln opt : Str} (h : optionOf ln = some opt) :
    ∃ c g, opt = c :: ch '.' :: ch ' ' :: g ∧ isUpperADn c = true ∧
      g.dropWhile isSpaceN = g := by
  unfold optionOf reOptMatch at h
  rcases ln with _ | ⟨c1, _ | ⟨c2, rest⟩⟩
  · simp at h
  · simp at h
  · have h2 : Option.map (fun p => p.1 :: ch '.' :: ch ' ' :: p.2)
        (if isUpperADn c1 = true ∧ (c2 = ch ')' ∨ c2 = ch '.') then
          some (c1, rest.dropWhile isSpaceN) else none) = some opt := h
    by_cases hcond : isUpperADn c1 = true ∧ (c2 = ch ')' ∨ c2 = ch '.')
    · rw [if_pos hcond] at h2
      refine ⟨c1, rest.dropWhile isSpaceN, ?_, hcond.1, dropWhile_idem _ _⟩
      have h3 : c1 :: ch '.' :: ch ' ' :: rest.dropWhile isSpaceN = opt := by
        simpa using h2
      exact h3.symm
    · rw [if_neg hcond] at h2
      simp at h2

theorem correctLetterOf_range {lines : List Str} {L : Nat}
    (h : correctLetterOf lines = some L) : 65 ≤ L ∧ L ≤ 68 := by
  unfold correctLetterOf at h
  cases hf : lines.find? (fun ln => hasSubstr (strOf "correct") (pyLower ln)) with
  | none => rw [hf] at h; simp at h
  | some cm =>
    rw [hf] at h
    have h2 : letterFromLine cm = some L := h
    unfold letterFromLine at h2
    by_cases hcolon : ch ':' ∈ cm
    · rw [if_pos hcolon] at h2
      unfold matchLetterB at h2
      cases hcand : pyStrip (afterFirstColon cm) with
      | nil => rw [hcand] at h2; simp at h2
      | cons c rest =>
        rw [hcand] at h2
        have h3 : (if isADi c = true ∧ (rest = [] ∨ isWordCharN (rest.headD 0) = false) then
            some (upperN c) else none) = some L := h2
        by_cases hcond : isADi c = true ∧ (rest = [] ∨ isWordCharN (rest.headD 0) = false)
        · rw [if_pos hcond] at h3
          have hL : L = upperN c := (Option.some_inj.mp h3).symm
          have hc := hcond.1
          simp only [isADi, Bool.or_eq_true, beq_iff_eq] at hc
          subst hL
          unfold upperN
          split <;> omega
        · rw [if_neg hcond] at h3; simp at h3
    · rw [if_neg hcolon] at h2; simp at h2

theorem parse_shape {raw : Str} {q : Question} (h : q ∈ parse_quiz_from_text raw) :
    (∀ opt ∈ q.options, ∃ c g, opt = c :: ch '.' :: ch ' ' :: g ∧ isUpperADn c = true ∧
        g.dropWhile isSpaceN = g) ∧
    (∀ L, q.correct = some L → 65 ≤ L ∧ L ≤ 68) := by
  obtain ⟨b, hb, hpb⟩ := mem_parse_iff.mp h
  obtain ⟨h0, h1, h2, h3, rfl⟩ := processBlock_eq_some.mp hpb
  constructor
  · intro opt hopt
    obtain ⟨ln, hln, hlo⟩ := List.mem_filterMap.mp hopt
    exact optionOf_shape hlo
  · intro L hL
    exact correctLetterOf_range (by simpa using hL)

theorem reOptMatch_canonical {c : Nat} {g : Str} (hAD : isUpperADn c = true)
    (hidem : g.dropWhile isSpaceN = g) :
    reOptMatch (c :: ch '.' :: ch ' ' :: g) = some (c, g) := by
  show (if isUpperADn c = true ∧ (ch '.' = ch ')' ∨ ch '.' = ch '.') then
      some (c, (ch ' ' :: g).dropWhile isSpaceN) else none) = some (c, g)
  have hsp : isSpaceN (ch ' ') = true := by decide
  rw [if_pos ⟨hAD, Or.inr rfl⟩, List.dropWhile_cons, if_pos hsp, hidem]

theorem origCorrectText_mem_optTexts {raw : Str} {q : Question} {t : Str}
    (hq : q ∈ parse_quiz_from_text raw) (h : origCorrectText q = some t) :
    t ∈ optTexts q := by
  unfold origCorrectText at h
  cases hL : q.correct with
  | none => rw [hL] at h; simp at h
  | some L =>
    rw [hL] at h
    have h2 : (match q.options.find? (fun opt => decide (opt.take 2 = [L, ch '.'])) with
      | none => none
      | some opt =>
        match reOptMatch opt with
        | some p => some (pyStrip p.2)
        | none => some (pyStrip (opt.drop 2))) = some t := h
    cases hf : q.options.find? (fun opt => decide (opt.take 2 = [L, ch '.'])) with
    | none => rw [hf] at h2; simp at h2
    | some opt =>
      rw [hf] at h2
      have hmem : opt ∈ q.options := List.mem_of_find?_eq_some hf
      obtain ⟨c, g, rfl, hAD, hidem⟩ := (parse_shape hq).1 opt hmem
      have hro := reOptMatch_canonical hAD hidem
      have h3 : (match reOptMatch (c :: ch '.' :: ch ' ' :: g) with
        | some p => some (pyStrip p.2)
        | none => some (pyStrip ((c :: ch '.' :: ch ' ' :: g).drop 2))) = some t := h2
      rw [hro] at h3
      refine List.mem_filterMap.mpr ⟨c :: ch '.' :: ch ' ' :: g, hmem, ?_⟩
      rw [hro]
      simpa using h3

theorem linesOf_mem_ne_nil {b l : Str} (h : l ∈ linesOf b) : l ≠ [] := by
  unfold linesOf at h
  have := (List.mem_filter.mp h).2
  simpa using this

theorem origCorrectText_eq_none {q : Question} {L : Nat} (hL : q.correct = some L)
    (hfind : q.options.find? (fun opt => decide (opt.take 2 = [L, ch '.'])) = none) :
    origCorrectText q = none := by
  unfold origCorrectText
  rw [hL]
  show (match q.options.find? (fun opt => decide (opt.take 2 = [L, ch '.'])) with
    | none => none
    | some opt =>
      match reOptMatch opt with
      | some p => some (pyStrip p.2)
      | none => some (pyStrip (opt.drop 2))) = none
  rw [hfind]

theorem markedCount_eq {q : Question} {L : Nat} (h : q.correct = some L) :
    markedCount q = q.options.countP (fun opt => decide (opt.take 2 = [L, ch '.'])) := by
  unfold markedCount
  rw [h]

theorem processBlock_intro {raw b : Str} (hb : b ∈ blocksOf raw)
    (h3 : 3 ≤ ((linesOf b).filterMap optionOf).length)
    (hc : (correctLetterOf (linesOf b)).isSome) :
    processBlock b = some ⟨(linesOf b).headD [], (linesOf b).filterMap optionOf,
      correctLetterOf (linesOf b), explanationOf (linesOf b)⟩ ∧
    (⟨(linesOf b).headD [], (linesOf b).filterMap optionOf,
      correctLetterOf (linesOf b), explanationOf (linesOf b)⟩ : Question)
      ∈ parse_quiz_from_text raw := by
  have hne := linesOf_ne_nil hb
  have hhead_ne : (linesOf b).headD [] ≠ [] := by
    cases hl : linesOf b with
    | nil => exact absurd hl hne
    | cons qt rest =>
      have hqt : qt ∈ linesOf b := by rw [hl]; exact List.mem_cons_self _ _
      simpa using linesOf_mem_ne_nil hqt
  have hq := processBlock_eq_some.mpr ⟨hne, hhead_ne, h3, hc, rfl⟩
  exact ⟨hq, mem_parse_iff.mpr ⟨b, hb, hq⟩⟩

/-! ### Concrete inputs used by the claim theorems -/

def raw1c : Str := strOf "1. Q?\nA. a\nB. b\nC. c\nCorrect Answer: D\nExplanation: e"

def b1c : Str := strOf "Q?\nA. a\nB. b\nC. c\nCorrect Answer: D\nExplanation: e"

def raw1w : Str :=
  strOf "1. What is 2+2?\nA. 3\nB. 4\nC. 5\nD. 6\nCorrect Answer: B\nExplanation: Basic arithmetic."

def raw2c : Str := strOf "1. Q?\nA. a\nB. b\nCorrect Answer: A\nExplanation: e"

def b2c : Str := strOf "Q?\nA. a\nB. b\nCorrect Answer: A\nExplanation: e"

def raw2w : Str := strOf "1. Q?\nA. a\nB. b\nC. c\nCorrect Answer: B\nExplanation: fine"

def b2w : Str := strOf "Q?\nA. a\nB. b\nC. c\nCorrect Answer: B\nExplanation: fine"

def raw5c : Str := strOf "1. Q?\nA. a\nB. b\nC. c\nD. d\nA. e\nCorrect Answer: A\nExplanation: x"

def q5c : Question :=
  ⟨strOf "Q?", [strOf "A. a", strOf "B. b", strOf "C. c", strOf "D. d", strOf "A. e"],
   some 65, strOf "x"⟩

def raw6c : Str :=
  strOf "Intro\nA. a\nB. b\nC. c\nCorrect Answer: A\nExplanation: e\n1. Q2?\nA. x\nB. y\nC. z\nCorrect Answer: B\nExplanation: f"

def raw8c : Str := strOf "1. Q?\nA) a\nB. b\nC. c\nCorrect Answer: A\nExplanation: e"

def q8c : Question :=
  ⟨strOf "Q?", [strOf "A. a", strOf "B. b", strOf "C. c"], some 65, strOf "e"⟩

def q7c : Question :=
  ⟨strOf "Q", [strOf "A. x", strOf "B. x", strOf "C. y"], some 65, strOf "e"⟩

def rawXc : Str :=
  strOf "1. Which is correct: B or C?\nA. a\nB. b\nC. c\nCorrect Answer: C\nExplanation: e"

def bXc : Str :=
  strOf "Which is correct: B or C?\nA. a\nB. b\nC. c\nCorrect Answer: C\nExplanation: e"

def qXc : Question :=
  ⟨strOf "Which is correct: B or C?", [strOf "A. a", strOf "B. b", strOf "C. c"],
   some 66, strOf "e"⟩

/-! ### Claim theorems -/

/-- C9: `parse` applied to the empty string returns the empty sequence (not an
error), and `shuffle` applied to an empty question list returns the empty
sequence, for every choice of permutations. -/
theorem C9_empty_inputs :
    parse_quiz_from_text (strOf "") = [] ∧
    ∀ qp ops, shuffle_quiz qp ops [] = [] := by
  refine ⟨by decide, ?_⟩
  intro qp ops
  simp [shuffle_quiz]

/-- C4: `shuffle_quiz` never mutates its input.  In the heap model, after any
number `n` of successive calls on the same quiz (the same store and address
list), the store — hence every `Question` of the canonical quiz, its prompt,
its option list and order, its correct marker, and its explanation — is
unchanged, and so is the quiz read through the caller's references.  The
call builds its output from fresh `Question` values and only ever copies the
caller's address list before permuting it (lines 380-381), so no write to
the store occurs. -/
theorem C4_no_mutation (store : List Question) (refs qp : List Nat)
    (ops : List (List Nat)) (n : Nat) :
    callRepeat refs qp ops n store = store ∧
    refs.map (fun r => (callRepeat refs qp ops n store).getD r default)
      = refs.map (fun r => store.getD r default) := by
  have hcall : ∀ st, (shuffle_quiz_call st refs qp ops).1 = st := by
    intro st
    unfold shuffle_quiz_call
    split <;> rfl
  have h : ∀ m st, callRepeat refs qp ops m st = st := by
    intro m
    induction m with
    | zero => intro st; rfl
    | succ m ihm =>
      intro st
      rw [callRepeat, hcall st, ihm st]
  exact ⟨h n store, by rw [h n store]⟩

/-- C7 counterexample: a question with duplicate option texts (`"x"` at
positions 0 and 1, the recorded correct text being `"x"`) shuffled with the
identity permutation is marked correct at letter `B` (code point 66) — the
LAST occurrence — not at the first occurrence `A` (65) as the claim states. -/
theorem C7_counterexample :
    (applyPerm [0, 1, 2] (optTexts q7c)).headD [] = strOf "x" ∧
    origCorrectText q7c = some (strOf "x") ∧
    (shuffle_quiz [0] [[0, 1, 2]] [q7c]).map Question.correct = [some 66] ∧
    (66 : Nat) ≠ 65 := by decide

theorem lastIdxOfAux_newCorrect {t : Str} (hne : t ≠ []) :
    ∀ (texts : List Str) (i : Nat) (acc : Option Nat),
      newCorrect (some t) i texts (acc.map (fun m => 65 + m))
        = (lastIdxOfAux i texts t acc).map (fun m => 65 + m) := by
  intro texts
  induction texts with
  | nil => intro i acc; rfl
  | cons x ts ih =>
    intro i acc
    rw [newCorrect, lastIdxOfAux, truthyEq_some]
    by_cases hx : x = t
    · rw [if_pos (by simp [hne, hx]), if_pos hx]
      have := ih (i + 1) (some i)
      simpa using this
    · rw [if_neg (by simp [hx]), if_neg hx]
      exact ih (i + 1) acc

/-- C7 (amended): for every `Question` whose recorded correct text `t` is
found and non-empty, `shuffle` marks as correct the letter of the LAST
occurrence of `t` in permutation order (the loop at lines 404-408 overwrites
the letter on every match), not the first unclaimed occurrence. -/
theorem C7_amended (q : Question) (op : List Nat) (t : Str)
    (ht : origCorrectText q = some t) (hne : t ≠ []) :
    shuffle_quiz [0] [op] [q] = [shuffleQuestion op q] ∧
    (shuffleQuestion op q).correct
      = (lastIdxOf (applyPerm op (optTexts q)) t).map (fun m => 65 + m) := by
  constructor
  · rw [shuffle_quiz, if_neg (by simp)]
    rfl
  · show newCorrect (origCorrectText q) 0 (applyPerm op (optTexts q)) none
      = (lastIdxOf (applyPerm op (optTexts q)) t).map (fun m => 65 + m)
    rw [ht]
    have := lastIdxOfAux_newCorrect hne (applyPerm op (optTexts q)) 0 none
    simpa [lastIdxOf] using this

/-- C7 witness: the amended statement applied at a concrete question with
duplicate texts and the identity permutation. -/
theorem C7_amended_w :
    shuffle_quiz [0] [[0, 1, 2]] [q7c] = [shuffleQuestion [0, 1, 2] q7c] ∧
    (shuffleQuestion [0, 1, 2] q7c).correct
      = (lastIdxOf (applyPerm [0, 1, 2] (optTexts q7c)) (strOf "x")).map (fun m => 65 + m) :=
  C7_amended q7c [0, 1, 2] (strOf "x") (by decide) (by decide)

/-- C5 counterexample: a block with five matching option lines (with the
letter `A` occurring twice) yields a Question with all five options kept in
encountered order — no truncation to 4, no per-letter dedup. -/
theorem C5_counterexample :
    parse_quiz_from_text raw5c = [q5c] ∧ q5c.options.length = 5 := by decide

/-- C5 (amended): the parser performs no truncation and no deduplication:
every emitted Question's option list is exactly the sequence of ALL matching
option lines of its block in encountered order, however many there are. -/
theorem C5_amended (raw : Str) (q : Question) (hq : q ∈ parse_quiz_from_text raw) :
    ∃ b, b ∈ blocksOf raw ∧ processBlock b = some q ∧
      q.options = (linesOf b).filterMap optionOf := by
  obtain ⟨b, hb, hpb⟩ := mem_parse_iff.mp hq
  obtain ⟨h0, h1, h2, h3, rfl⟩ := processBlock_eq_some.mp hpb
  exact ⟨b, hb, hpb, rfl⟩

/-- C5 witness: the amended statement applied at the five-option input. -/
theorem C5_amended_w :
    ∃ b, b ∈ blocksOf raw5c ∧ processBlock b = some q5c ∧
      q5c.options = (linesOf b).filterMap optionOf :=
  C5_amended raw5c q5c (by decide)

/-- C8 counterexample: for the input whose first option line is `"A) a"`,
the stored first choice is the string `"A. a"` — it carries a normalized
letter marker — and not the bare content `"a"` the claim requires. -/
theorem C8_counterexample :
    (parse_quiz_from_text raw8c).length = 1 ∧
    ((parse_quiz_from_text raw8c).headD default).options.headD [] = strOf "A. a" ∧
    strOf "A. a" ≠ strOf "a" := by decide

/-- C8 (amended): every stored choice string is the matched line's letter,
then `". "`, then the line's content with the letter prefix removed (line
350 re-attaches a normalized marker to the bare content). -/
theorem C8_amended (raw : Str) (q : Question) (hq : q ∈ parse_quiz_from_text raw) :
    ∃ b, b ∈ blocksOf raw ∧ processBlock b = some q ∧
      ∀ opt ∈ q.options, ∃ ln ∈ linesOf b, ∃ c g,
        reOptMatch ln = some (c, g) ∧ opt = c :: ch '.' :: ch ' ' :: g := by
  obtain ⟨b, hb, hpb⟩ := mem_parse_iff.mp hq
  refine ⟨b, hb, hpb, ?_⟩
  obtain ⟨h0, h1, h2, h3, rfl⟩ := processBlock_eq_some.mp hpb
  intro opt hopt
  obtain ⟨ln, hln, hlo⟩ := List.mem_filterMap.mp hopt
  unfold optionOf at hlo
  cases hro : reOptMatch ln with
  | none => rw [hro] at hlo; simp at hlo
  | some p =>
    rw [hro] at hlo
    refine ⟨ln, hln, p.1, p.2, by rw [hro], ?_⟩
    simpa using hlo.symm

/-- C8 witness: the amended statement applied at the `"A) a"` input. -/
theorem C8_amended_w :
    ∃ b, b ∈ blocksOf raw8c ∧ processBlock b = some q8c ∧
      ∀ opt ∈ q8c.options, ∃ ln ∈ linesOf b, ∃ c g,
        reOptMatch ln = some (c, g) ∧ opt = c :: ch '.' :: ch ' ' :: g :=
  C8_amended raw8c q8c (by decide)

theorem processBlock_eq_none_of_lt {b : Str}
    (h : ((linesOf b).filterMap optionOf).length < 3) : processBlock b = none := by
  cases hpb : processBlock b with
  | none => rfl
  | some q =>
    obtain ⟨h0, h1, h3, h4, h5⟩ := processBlock_eq_some.mp hpb
    omega

/-- C2 counterexample: a block with non-empty prompt, exactly 2 recognized
options, and a correct letter that resolves — the letter `A` both matches a
recognized option and, read as an index (0), lies within the 2 options —
yields NO Question: the code (line 365) demands at least 3 options, not 2. -/
theorem C2_counterexample :
    b2c ∈ blocksOf raw2c ∧
    ((linesOf b2c).filterMap optionOf).length = 2 ∧
    correctLetterOf (linesOf b2c) = some 65 ∧
    (∃ opt ∈ (linesOf b2c).filterMap optionOf, opt.take 2 = [65, ch '.']) ∧
    65 - 65 < ((linesOf b2c).filterMap optionOf).length ∧
    parse_quiz_from_text raw2c = [] := by decide

/-- C2 (amended): the acceptance condition of line 365 is: at least 3 option
lines recognized and a correct letter extracted — nothing more.  For every
block of the raw input in which at least 3 option lines were recognized and
a correct letter was extracted, parse emits a corresponding Question (the
prompt, being the block's first non-empty stripped line, is automatically
non-empty, and the letter is NOT required to index into the recognized
options); and every block with fewer than 3 recognized option lines — in
particular one with exactly 2 valid options and a resolvable correct
answer — contributes no Question. -/
theorem C2_amended (raw b : Str) (hb : b ∈ blocksOf raw) :
    (∀ L, correctLetterOf (linesOf b) = some L →
      3 ≤ ((linesOf b).filterMap optionOf).length →
      ∃ q, processBlock b = some q ∧ q ∈ parse_quiz_from_text raw ∧
        q.question = (linesOf b).headD [] ∧
        q.options = (linesOf b).filterMap optionOf ∧ q.correct = some L) ∧
    (((linesOf b).filterMap optionOf).length < 3 → processBlock b = none) := by
  constructor
  · intro L hc h3
    obtain ⟨hq, hmem⟩ := processBlock_intro hb h3 (by rw [hc]; rfl)
    exact ⟨_, hq, hmem, rfl, rfl, hc⟩
  · intro hlt
    exact processBlock_eq_none_of_lt hlt

/-- C2 witness: the positive half of the amended statement applied at a
three-option block, and the negative half at the two-option block. -/
theorem C2_amended_w :
    (∃ q, processBlock b2w = some q ∧ q ∈ parse_quiz_from_text raw2w ∧
      q.question = (linesOf b2w).headD [] ∧
      q.options = (linesOf b2w).filterMap optionOf ∧ q.correct = some 66) ∧
    processBlock b2c = none :=
  ⟨(C2_amended raw2w b2w (by decide)).1 66 (by decide) (by decide),
   (C2_amended raw2c b2c (by decide)).2 (by decide)⟩

/-- C3 counterexample: in the block of `raw1c` the extracted correct letter
is `D` (68) and no recognized option carries that letter, yet the block
contributes one Question (the claim demands zero). -/
theorem C3_counterexample :
    b1c ∈ blocksOf raw1c ∧
    correctLetterOf (linesOf b1c) = some 68 ∧
    (∀ opt ∈ (linesOf b1c).filterMap optionOf, ¬opt.take 2 = [68, ch '.']) ∧
    (parse_quiz_from_text raw1c).length = 1 := by decide

/-- C3 (amended): the parser does not validate the correct letter against
the recognized options: a block with a non-empty prompt, at least 3
recognized options and an extracted correct letter that matches NO option
still contributes a Question, carrying the dangling letter; the shuffle
engine then fails to locate a correct text for it. -/
theorem C3_amended (raw b : Str) (hb : b ∈ blocksOf raw) (L : Nat)
    (hc : correctLetterOf (linesOf b) = some L)
    (h3 : 3 ≤ ((linesOf b).filterMap optionOf).length)
    (hnomatch : ∀ opt ∈ (linesOf b).filterMap optionOf, ¬opt.take 2 = [L, ch '.']) :
    ∃ q, processBlock b = some q ∧ q ∈ parse_quiz_from_text raw ∧
      q.correct = some L ∧ origCorrectText q = none := by
  obtain ⟨hq, hmem⟩ := processBlock_intro hb h3 (by rw [hc]; rfl)
  refine ⟨_, hq, hmem, hc, ?_⟩
  refine origCorrectText_eq_none hc (List.find?_eq_none.mpr ?_)
  intro opt hopt
  simpa using hnomatch opt hopt

/-- C3 witness: the amended statement applied at the dangling-letter input. -/
theorem C3_amended_w :
    ∃ q, processBlock b1c = some q ∧ q ∈ parse_quiz_from_text raw1c ∧
      q.correct = some 68 ∧ origCorrectText q = none :=
  C3_amended raw1c b1c (by decide) 68 (by decide) (by decide) (by decide)

theorem splitScanAux_ne_nil :
    ∀ (fuel : Nat) (s : Str) (st : Bool) (acc : Str), splitScanAux fuel s st acc ≠ [] := by
  intro fuel
  induction fuel with
  | zero => intro s st acc; rw [splitScanAux]; simp
  | succ fuel ih =>
    intro s st acc
    cases s with
    | nil => rw [splitScanAux]; simp
    | cons c cs =>
      rw [splitScanAux]
      by_cases hP : st = true ∧ (matchMarker (c :: cs)).isSome = true
      · rw [dif_pos hP]; simp
      · rw [dif_neg hP]
        exact ih cs (c == 10) (c :: acc)

theorem splitScanAux_headD :
    ∀ (fuel : Nat) (s : Str) (st : Bool) (acc : Str), s.length < fuel →
      (splitScanAux fuel s st acc).headD [] = acc.reverse ++ preambleSpecAux s st := by
  intro fuel
  induction fuel with
  | zero => intro s st acc h; omega
  | succ fuel ih =>
    intro s st acc h
    cases s with
    | nil => rw [splitScanAux, preambleSpecAux]; simp
    | cons c cs =>
      have hlen : cs.length < fuel := by simp at h; omega
      rw [splitScanAux, preambleSpecAux]
      by_cases hP : st = true ∧ (matchMarker (c :: cs)).isSome = true
      · rw [dif_pos hP, if_pos hP]
        simp
      · rw [dif_neg hP, if_neg hP, ih cs (c == 10) (c :: acc) hlen]
        simp

/-- C6 counterexample: for `raw6c` the preamble (the text before the first
numbering marker) is `"Intro\n...Explanation: e\n"`; it is NOT discarded —
it is parsed as an ordinary block and contributes the first of the two
emitted Questions, with prompt `"Intro"`. -/
theorem C6_counterexample :
    preambleSpec raw6c
      = strOf "Intro\nA. a\nB. b\nC. c\nCorrect Answer: A\nExplanation: e\n" ∧
    (parse_quiz_from_text raw6c).length = 2 ∧
    ((parse_quiz_from_text raw6c).headD default).question = strOf "Intro" := by decide

/-- C6 (amended): the text preceding the first numbering marker is NOT
discarded: `re.split` keeps it as the first part of the split, and when its
stripped form is non-empty it becomes the first block, parsed exactly like
any numbered block (so it can contribute a Question). -/
theorem C6_amended (raw : Str) :
    (pySplitMarker raw).headD [] = preambleSpec raw ∧
    (pyStrip (preambleSpec raw) ≠ [] →
      (blocksOf raw).headD [] = pyStrip (preambleSpec raw)) := by
  have h1 : (pySplitMarker raw).headD [] = preambleSpec raw := by
    unfold pySplitMarker preambleSpec
    have := splitScanAux_headD (raw.length + 1) raw true [] (by omega)
    simpa using this
  refine ⟨h1, ?_⟩
  intro hne
  unfold blocksOf
  obtain ⟨p0, ps, hps⟩ : ∃ p0 ps, pySplitMarker raw = p0 :: ps := by
    cases hsp : pySplitMarker raw with
    | nil =>
      exact absurd hsp (by unfold pySplitMarker; exact splitScanAux_ne_nil _ _ _ _)
    | cons p0 ps => exact ⟨p0, ps, rfl⟩
  have hp0 : p0 = preambleSpec raw := by
    rw [hps] at h1
    simpa using h1
  rw [hps, List.map_cons, hp0, List.filter_cons, if_pos (by simpa using hne)]
  simp

/-- C6 witness: the amended statement applied at `raw6c`, whose preamble is
non-empty after stripping and becomes the first block. -/
theorem C6_amended_w :
    (blocksOf raw6c).headD [] = pyStrip (preambleSpec raw6c) :=
  (C6_amended raw6c).2 (by decide)

/-- C10: the correct-answer line of a block is the FIRST line containing the
substring "correct" (case-insensitive) at any position (line 352), and the
letter is extracted from that line; concretely, for `rawXc`, whose prompt is
"Which is correct: B or C?", the emitted correct letter is `B` (66),
extracted from the prompt, not `C` (67) from the later
"Correct Answer: C" line — so the marked option changes. -/
theorem C10_first_correct_line :
    (∀ b q ln, processBlock b = some q →
        (linesOf b).find? (fun l => hasSubstr (strOf "correct") (pyLower l)) = some ln →
        q.correct = letterFromLine ln) ∧
    ((parse_quiz_from_text rawXc).headD default).correct = some 66 ∧
    letterFromLine (strOf "Correct Answer: C") = some 67 ∧ (66 : Nat) ≠ 67 := by
  refine ⟨?_, by decide, by decide, by decide⟩
  intro b q ln hpb hfind
  obtain ⟨h0, h1, h2, h3, rfl⟩ := processBlock_eq_some.mp hpb
  show correctLetterOf (linesOf b) = letterFromLine ln
  unfold correctLetterOf
  rw [hfind]

/-- C10 witness: the first-line rule applied at the concrete block whose
prompt contains "correct:". -/
theorem C10_first_correct_line_w :
    qXc.correct = letterFromLine (strOf "Which is correct: B or C?") :=
  C10_first_correct_line.1 bXc qXc (strOf "Which is correct: B or C?")
    (by decide) (by decide)

theorem getD_eq_get {α : Type} (l : List α) (d : α) (j : Nat) (h : j < l.length) :
    l.getD j d = l.get ⟨j, h⟩ := by
  rw [List.getD_eq_getElem?_getD, List.getElem?_eq_getElem h, Option.getD_some]
  rfl

theorem mem_zipWith_of_get {α β γ : Type} (f : α → β → γ) (as : List α) (bs : List β)
    (j : Nat) (ha : j < as.length) (hb : j < bs.length) :
    f (as.get ⟨j, ha⟩) (bs.get ⟨j, hb⟩) ∈ List.zipWith f as bs := by
  refine List.mem_iff_getElem.mpr ⟨j, ?_, ?_⟩
  · rw [List.length_zipWith]; omega
  · rw [List.getElem_zipWith]
    rfl

/-- C1 counterexample: the parser can emit a question whose correct letter
(`D`) matches no option ("Correct Answer: D" with options A, B, C); its
option texts are pairwise distinct, the permutations below are genuine
permutations, yet the shuffled output question has NO choice marked correct
(marked count 0, not exactly 1). -/
theorem C1_counterexample :
    (optTexts ((parse_quiz_from_text raw1c).headD default)).Nodup ∧
    [0].Perm (List.range (parse_quiz_from_text raw1c).length) ∧
    ([[0, 1, 2]] : List (List Nat)).length = (parse_quiz_from_text raw1c).length ∧
    [0, 1, 2].Perm
      (List.range (optTexts ((parse_quiz_from_text raw1c).headD default)).length) ∧
    markedCount ((shuffle_quiz [0] [[0, 1, 2]] (parse_quiz_from_text raw1c)).headD default)
      = 0 := by decide

/-- C1 (amended): for every canonical quiz `Q` produced by the parser and
every choice of genuine permutations, `shuffle(Q)` has the same length as
`Q`; for every input question the output contains a question with the same
prompt, the same explanation, and whose options display a permutation of the
input's option texts; and for every input question with pairwise-distinct
option texts WHOSE RECORDED CORRECT TEXT EXISTS AND IS NON-EMPTY (its
correct letter matches an option with non-empty content — the code does not
guarantee this for all parser output), exactly one choice of the
corresponding output question is marked correct, namely the one carrying
that text. -/
theorem C1_amended (raw : Str) (qp : List Nat) (ops : List (List Nat))
    (hqp : qp.Perm (List.range (parse_quiz_from_text raw).length))
    (hlen : ops.length = (parse_quiz_from_text raw).length)
    (hops : ∀ j (hj : j < ops.length),
      (ops.get ⟨j, hj⟩).Perm
        (List.range
          (optTexts ((applyPermQ qp (parse_quiz_from_text raw)).getD j default)).length)) :
    (shuffle_quiz qp ops (parse_quiz_from_text raw)).length
      = (parse_quiz_from_text raw).length ∧
    (∀ q ∈ parse_quiz_from_text raw,
      ∃ q' ∈ shuffle_quiz qp ops (parse_quiz_from_text raw),
        q'.question = q.question ∧ q'.explanation = q.explanation ∧
        ∃ texts, q'.options = buildOptions 0 texts ∧ texts.Perm (optTexts q)) ∧
    (∀ q ∈ parse_quiz_from_text raw, (optTexts q).Nodup →
      ∀ t, origCorrectText q = some t → t ≠ [] →
      ∃ q' ∈ shuffle_quiz qp ops (parse_quiz_from_text raw),
        q'.question = q.question ∧ q'.explanation = q.explanation ∧
        markedCount q' = 1 ∧
        ∃ m, q'.correct = some (65 + m) ∧
          q'.options.getD m [] = (65 + m) :: ch '.' :: ch ' ' :: t) := by
  by_cases hQ : parse_quiz_from_text raw = []
  · refine ⟨?_, ?_, ?_⟩
    · simp [shuffle_quiz, hQ]
    · intro q hq
      rw [hQ] at hq
      simp at hq
    · intro q hq
      rw [hQ] at hq
      simp at hq
  · have hout : shuffle_quiz qp ops (parse_quiz_from_text raw)
        = List.zipWith shuffleQuestion ops (applyPermQ qp (parse_quiz_from_text raw)) := by
      rw [shuffle_quiz, if_neg hQ]
    have hqpl : qp.length = (parse_quiz_from_text raw).length := by
      simpa using hqp.length_eq
    have hpl : (applyPermQ qp (parse_quiz_from_text raw)).length
        = (parse_quiz_from_text raw).length := by
      simp [applyPermQ, hqpl]
    have hol : (shuffle_quiz qp ops (parse_quiz_from_text raw)).length
        = (parse_quiz_from_text raw).length := by
      rw [hout, List.length_zipWith, hlen, hpl, Nat.min_self]
    have key : ∀ q ∈ parse_quiz_from_text raw, ∃ j, ∃ hj : j < ops.length,
        shuffleQuestion (ops.get ⟨j, hj⟩) q ∈ shuffle_quiz qp ops (parse_quiz_from_text raw) ∧
        (applyPermQ qp (parse_quiz_from_text raw)).getD j default = q := by
      intro q hq
      obtain ⟨k, hk, hkq⟩ := List.mem_iff_getElem.mp hq
      have hkqp : k ∈ qp := hqp.mem_iff.mpr (List.mem_range.mpr hk)
      obtain ⟨j, hj, hjk⟩ := List.mem_iff_getElem.mp hkqp
      have hjo : j < ops.length := by omega
      have hjp : j < (applyPermQ qp (parse_quiz_from_text raw)).length := by omega
      have hgd : (applyPermQ qp (parse_quiz_from_text raw)).getD j default = q := by
        rw [getD_eq_get _ _ _ hjp]
        show (qp.map (fun i => (parse_quiz_from_text raw).getD i default)).get ⟨j, hjp⟩ = q
        have hmap : (qp.map (fun i => (parse_quiz_from_text raw).getD i default)).get ⟨j, hjp⟩
            = (parse_quiz_from_text raw).getD (qp.get ⟨j, hj⟩) default := by
          show (qp.map (fun i => (parse_quiz_from_text raw).getD i default))[j] = _
          rw [List.getElem_map]
          rfl
        rw [hmap, show qp.get ⟨j, hj⟩ = k from hjk,
          getD_eq_get _ _ _ hk]
        exact hkq
      refine ⟨j, hjo, ?_, hgd⟩
      have hget : (applyPermQ qp (parse_quiz_from_text raw)).get ⟨j, hjp⟩ = q := by
        rw [← getD_eq_get _ _ _ hjp]
        exact hgd
      have hmem := mem_zipWith_of_get shuffleQuestion ops
        (applyPermQ qp (parse_quiz_from_text raw)) j hjo hjp
      rw [hget] at hmem
      rw [hout]
      exact hmem
    refine ⟨hol, ?_, ?_⟩
    · intro q hq
      obtain ⟨j, hj, hmem, hgd⟩ := key q hq
      have hperm0 := hops j hj
      rw [hgd] at hperm0
      exact ⟨shuffleQuestion (ops.get ⟨j, hj⟩) q, hmem, rfl, rfl,
        applyPerm (ops.get ⟨j, hj⟩) (optTexts q), rfl, applyPerm_perm hperm0⟩
    · intro q hq hnd t hot hne
      obtain ⟨j, hj, hmem, hgd⟩ := key q hq
      have hperm0 := hops j hj
      rw [hgd] at hperm0
      have hperm : (applyPerm (ops.get ⟨j, hj⟩) (optTexts q)).Perm (optTexts q) :=
        applyPerm_perm hperm0
      have htmem : t ∈ applyPerm (ops.get ⟨j, hj⟩) (optTexts q) :=
        hperm.mem_iff.mpr (origCorrectText_mem_optTexts hq hot)
      have hndt : (applyPerm (ops.get ⟨j, hj⟩) (optTexts q)).Nodup :=
        hperm.symm.nodup hnd
      obtain ⟨m, hm, hmt⟩ := List.mem_iff_getElem.mp htmem
      have hgdm : (applyPerm (ops.get ⟨j, hj⟩) (optTexts q)).getD m [] = t := by
        rw [getD_eq_get _ _ _ hm]
        exact hmt
      have hcor : (shuffleQuestion (ops.get ⟨j, hj⟩) q).correct = some (65 + m) := by
        show newCorrect (origCorrectText q) 0 (applyPerm (ops.get ⟨j, hj⟩) (optTexts q)) none
          = some (65 + m)
        rw [hot]
        have hval := newCorrect_nodup hndt hne m hm hgdm 0 none
        simpa using hval
      have hmc : markedCount (shuffleQuestion (ops.get ⟨j, hj⟩) q) = 1 := by
        rw [markedCount_eq hcor]
        show (buildOptions 0 (applyPerm (ops.get ⟨j, hj⟩) (optTexts q))).countP
          (fun opt => decide (opt.take 2 = [65 + m, ch '.'])) = 1
        have hval := countP_buildOptions_eq_one 0 m hm
        simpa using hval
      refine ⟨shuffleQuestion (ops.get ⟨j, hj⟩) q, hmem, rfl, rfl, hmc, m, hcor, ?_⟩
      show (buildOptions 0 (applyPerm (ops.get ⟨j, hj⟩) (optTexts q))).getD m []
        = (65 + m) :: ch '.' :: ch ' ' :: t
      rw [buildOptions_getD 0 m hm, hgdm]
      simp

/-- C1 witness: the amended statement applied at the four-option
scenario-1 input with concrete permutations. -/
theorem C1_amended_w :
    (shuffle_quiz [0] [[1, 0, 3, 2]] (parse_quiz_from_text raw1w)).length
      = (parse_quiz_from_text raw1w).length :=
  (C1_amended raw1w [0] [[1, 0, 3, 2]] (by decide) (by decide) (by decide)).1

end TrailheadQuiz
